import Mathlib

/-!
Verification of the timecode/CSV normalization and segment-construction core
of the csv-timeline application (src/app.py).

The embedding works over rationals (`ℚ`) in place of IEEE doubles; Python's
decimal-literal parsing and fixed-point formatting are modelled exactly on ℚ,
with round-to-nearest, ties-to-even for the three fractional display digits.
Case mapping and whitespace are modelled on the ASCII range (Python's
`str.lower`/`str.strip` agree with this model on ASCII input); `float("inf")`
and `float("nan")` are outside the rational model and are treated as
unparseable. Strings are Lean `String`s, processed as their `List Char` data.
-/

namespace CsvTimeline

/-- Whitespace recognised by the model of Python `str.strip()`:
space, tab, LF, VT, FF, CR. -/
def isPySpace (c : Char) : Bool :=
  c.toNat = 32 || c.toNat = 9 || c.toNat = 10 || c.toNat = 11 || c.toNat = 12 || c.toNat = 13

/-- Drop leading whitespace (model of `str.lstrip()`). -/
def lstrip (l : List Char) : List Char := l.dropWhile isPySpace

/-- Drop trailing whitespace (model of `str.rstrip()`). -/
def rstrip (l : List Char) : List Char := (lstrip l.reverse).reverse

/-- Model of Python `str.strip()`: drop leading and trailing whitespace. -/
def pyStrip (l : List Char) : List Char := rstrip (lstrip l)

/-- ASCII lower-casing of one character, the model of Python `str.lower()`
pointwise (`A`–`Z` map to `a`–`z`, everything else is fixed). -/
def pyLowerChar (c : Char) : Char :=
  if 65 ≤ c.toNat ∧ c.toNat ≤ 90 then Char.ofNat (c.toNat + 32) else c

/-- ASCII upper-casing of one character, the model of Python `str.upper()`
pointwise (`a`–`z` map to `A`–`Z`, everything else is fixed). -/
def pyUpperChar (c : Char) : Char :=
  if 97 ≤ c.toNat ∧ c.toNat ≤ 122 then Char.ofNat (c.toNat - 32) else c

/-- Model of Python `str.lower()`. -/
def pyLower (l : List Char) : List Char := l.map pyLowerChar

/-- Model of Python `str.upper()` (used only to state case-insensitivity). -/
def pyUpper (s : String) : String := ⟨s.data.map pyUpperChar⟩

/-- Numeric value of a digit string (most significant first);
only meaningful when all characters are digits. -/
def digitsVal (l : List Char) : Nat :=
  l.foldl (fun acc c => acc * 10 + (c.toNat - 48)) 0

/-- Decimal-digit run to a natural number: `some` iff the list is a nonempty
run of ASCII digits (the digit part of Python `int()`). -/
def digitsToNat (l : List Char) : Option Nat :=
  if l ≠ [] ∧ l.all (·.isDigit) then some (digitsVal l) else none

/-- Model of Python `int(str)`: strip whitespace, optional sign, digit run.
(Underscore separators and non-ASCII digits are outside the model.) -/
def pyIntCore (l : List Char) : Option Int :=
  match l with
  | [] => none
  | c :: rest =>
    if c = '-' then
      match digitsToNat rest with
      | some n => some (-(n : Int))
      | none => none
    else if c = '+' then
      match digitsToNat rest with
      | some n => some ((n : Int))
      | none => none
    else
      match digitsToNat (c :: rest) with
      | some n => some ((n : Int))
      | none => none

/-- Python `int(str)` including its own whitespace stripping. -/
def pyInt (l : List Char) : Option Int := pyIntCore (pyStrip l)

/-- Mantissa of a decimal literal: `digits`, `digits.digits`, `.digits` or
`digits.`, valued in ℚ. -/
def parseMantissa (l : List Char) : Option ℚ :=
  let ip := l.takeWhile (·.isDigit)
  let rest := l.dropWhile (·.isDigit)
  match rest with
  | [] => if ip = [] then none else some ((digitsVal ip : ℚ))
  | c :: rest2 =>
    if c = '.' then
      if rest2.all (·.isDigit) then
        if ip = [] ∧ rest2 = [] then none
        else some ((digitsVal ip : ℚ) + (digitsVal rest2 : ℚ) / (10 : ℚ) ^ rest2.length)
      else none
    else none

/-- Unsigned part of Python `float(str)` on decimal literals:
mantissa with optional `e`/`E` exponent. -/
def pyFloatCore (l : List Char) : Option ℚ :=
  let m := l.takeWhile (fun c => c.isDigit || c == '.')
  let r := l.dropWhile (fun c => c.isDigit || c == '.')
  match r with
  | [] => parseMantissa m
  | c :: t =>
    if c = 'e' ∨ c = 'E' then
      match parseMantissa m, pyIntCore t with
      | some mv, some e => some (mv * (10 : ℚ) ^ e)
      | _, _ => none
    else none

/-- Model of Python `float(str)` on decimal literals: strip, optional sign,
then the unsigned literal. (`inf`/`nan` are outside the rational model and
yield `none`, i.e. are treated as unparseable.) -/
def pyFloat (l : List Char) : Option ℚ :=
  match pyStrip l with
  | [] => none
  | c :: rest =>
    if c = '-' then (pyFloatCore rest).map (fun q => -q)
    else if c = '+' then pyFloatCore rest
    else pyFloatCore (c :: rest)

/-- Model of Python `str.split(sep)` for a one-character separator. -/
def splitCh (sep : Char) : List Char → List (List Char)
  | [] => [[]]
  | c :: rest =>
    let r := splitCh sep rest
    if c = sep then [] :: r
    else (c :: r.headD []) :: r.tail

/-- Embedding of `parse_timecode` (src/app.py lines 64-93): strip the input;
a colon-bearing string is split on `:` and interpreted as `h:m:s:f` at a
hard-coded 30 fps, or `h:m:s`, with any `int()` failure or other field count
giving `0`; otherwise the input is read as decimal seconds, `0` if that fails. -/
def parse_timecode (s : String) : ℚ :=
  let t := pyStrip s.data
  if ':' ∈ t then
    match splitCh ':' t with
    | [a, b, c, d] =>
      match pyInt a, pyInt b, pyInt c, pyInt d with
      | some hours, some minutes, some seconds, some frames =>
        (hours : ℚ) * 3600 + (minutes : ℚ) * 60 + (seconds : ℚ) + (frames : ℚ) / 30
      | _, _, _, _ => 0
    | [a, b, c] =>
      match pyInt a, pyInt b, pyInt c with
      | some hours, some minutes, some seconds =>
        (hours : ℚ) * 3600 + (minutes : ℚ) * 60 + (seconds : ℚ)
      | _, _, _ => 0
    | _ => 0
  else
    match pyFloat t with
    | some q => q
    | none => 0

/-- Python `%` on reals: result has the sign of the (positive) divisor. -/
def pyMod (a b : ℚ) : ℚ := a - b * ⌊a / b⌋

/-- Round to the nearest integer, ties to even (the rounding used by Python
fixed-point float formatting). -/
def roundHE (q : ℚ) : Int :=
  if q - ⌊q⌋ < 1 / 2 then ⌊q⌋
  else if 1 / 2 < q - ⌊q⌋ then ⌊q⌋ + 1
  else if ⌊q⌋ % 2 = 0 then ⌊q⌋ else ⌊q⌋ + 1

/-- Left-pad a string with zeros to the given width (Python `0`-fill). -/
def zfill (w : Nat) (s : String) : String :=
  if s.length < w then ⟨List.replicate (w - s.length) '0'⟩ ++ s else s

/-- Python `f"{n:02d}"`: zero-padded to width 2, sign leading. -/
def intPad2 (n : Int) : String :=
  if n < 0 then "-" ++ zfill 1 (Nat.repr n.natAbs) else zfill 2 (Nat.repr n.natAbs)

/-- Python `f"{q:06.3f}"` for the seconds field; the argument is always
`seconds % 60`, hence in `[0, 60)`, so the sign-free form suffices. -/
def fmtSecs (q : ℚ) : String :=
  let n := (roundHE (q * 1000)).toNat
  zfill 6 (Nat.repr (n / 1000) ++ "." ++ zfill 3 (Nat.repr (n % 1000)))

/-- Embedding of `format_timecode` (src/app.py lines 95-100):
`f"{hours:02d}:{minutes:02d}:{secs:06.3f}"` with `hours = int(seconds // 3600)`,
`minutes = int((seconds % 3600) // 60)`, `secs = seconds % 60`. -/
def format_timecode (v : ℚ) : String :=
  intPad2 ⌊v / 3600⌋ ++ ":" ++ intPad2 ⌊pyMod v 3600 / 60⌋ ++ ":" ++ fmtSecs (pyMod v 60)

/-- Embedding of `normalize_column_name` (src/app.py lines 102-104):
`column_name.lower().strip()`. -/
def normalize_column_name (c : String) : String := ⟨pyStrip (pyLower c.data)⟩

/-- Substring occurrence, the model of Python `needle in haystack`. -/
def subOccurs (needle : List Char) : List Char → Bool
  | [] => needle.isEmpty
  | c :: rest => needle.isPrefixOf (c :: rest) || subOccurs needle rest

/-- The source keywords of `find_source_column` (src/app.py line 108). -/
def source_keywords : List String := ["script", "line", "text", "transcription"]

/-- The per-header test of `find_source_column`:
`any(keyword in normalized_col for keyword in source_keywords)`. -/
def isSourceHeader (col : String) : Bool :=
  source_keywords.any (fun kw => subOccurs kw.data (normalize_column_name col).data)

/-- Embedding of `find_source_column` (src/app.py lines 106-115): return the
first column whose normalized name contains one of the source keywords. -/
def find_source_column : List String → Option String
  | [] => none
  | col :: rest =>
    if isSourceHeader col then some col else find_source_column rest

/-- The three role-assignment variables of the header loop in `upload_csv`
(src/app.py lines 226-239). -/
structure Resolved where
  speaker_col : Option String
  start_time_col : Option String
  end_time_col : Option String
deriving DecidableEq

/-- One iteration of the header loop of `upload_csv` (src/app.py lines 231-239):
an `if`/`elif` chain overwriting the matching role with the current column. -/
def resolveStep (acc : Resolved) (col : String) : Resolved :=
  let n := normalize_column_name col
  if n ∈ ["speaker"] then { acc with speaker_col := some col }
  else if n ∈ ["start_time", "starttime", "start time"] then { acc with start_time_col := some col }
  else if n ∈ ["end_time", "endtime", "end time"] then { acc with end_time_col := some col }
  else acc

/-- The header loop of `upload_csv` (src/app.py lines 231-239). -/
def resolveRoles (cols : List String) : Resolved :=
  cols.foldl resolveStep ⟨none, none, none⟩

/-- The header-stripping pass of `upload_csv` (src/app.py line 223):
`df.columns = [col.strip() for col in df.columns]`. -/
def strippedCols (headers : List String) : List String :=
  headers.map (fun c => ⟨pyStrip c.data⟩)

/-- The list of missing role names built by `upload_csv`
(src/app.py lines 245-253), in its fixed order. -/
def missingCols (headers : List String) : List String :=
  let cols := strippedCols headers
  (if (resolveRoles cols).speaker_col = none then ["speaker"] else []) ++
  (if (resolveRoles cols).start_time_col = none then ["start_time"] else []) ++
  (if (resolveRoles cols).end_time_col = none then ["end_time"] else []) ++
  (if find_source_column cols = none then ["source (script/line/text/transcription)"] else [])

/-- The four resolved column names of `upload_csv`, `none` when the dataset is
rejected (src/app.py lines 226-244): speaker, start, end, source in order. -/
def resolveAll (headers : List String) : Option (String × String × String × String) :=
  let cols := strippedCols headers
  match (resolveRoles cols).speaker_col, (resolveRoles cols).start_time_col,
        (resolveRoles cols).end_time_col, find_source_column cols with
  | some spc, some stc, some enc, some srcc => some (spc, stc, enc, srcc)
  | _, _, _, _ => none

/-- A CSV data row: cell values indexed by column name. -/
abbrev Row := List (String × String)

/-- Cell lookup `row[col]` (columns resolved from the header always exist;
a missing key yields `""` in the model). -/
def getCell (r : Row) (c : String) : String :=
  ((r.find? (fun p => p.1 == c)).map (fun p => p.2)).getD ""

/-- One segment dictionary of `upload_csv` (src/app.py lines 275-284). -/
structure Segment where
  id : Nat
  speaker : String
  start_time : ℚ
  end_time : ℚ
  start_time_formatted : String
  end_time_formatted : String
  text : String
  duration : ℚ
deriving DecidableEq

/-- The retention test of `upload_csv` (src/app.py line 274):
`start_time >= 0 and end_time > start_time`. -/
def keepRow (stc enc : String) (r : Row) : Prop :=
  0 ≤ parse_timecode (getCell r stc) ∧ parse_timecode (getCell r stc) < parse_timecode (getCell r enc)

instance (stc enc : String) (r : Row) : Decidable (keepRow stc enc r) :=
  inferInstanceAs (Decidable (_ ∧ _))

/-- The segment built from row `r` at positional index `i`
(src/app.py lines 275-284). -/
def segOfRow (spc stc enc srcc : String) (i : Nat) (r : Row) : Segment :=
  let st := parse_timecode (getCell r stc)
  let en := parse_timecode (getCell r enc)
  { id := i
    speaker := getCell r spc
    start_time := st
    end_time := en
    start_time_formatted := format_timecode st
    end_time_formatted := format_timecode en
    text := getCell r srcc
    duration := en - st }

/-- The row loop of `upload_csv` (src/app.py lines 263-285): keep a row as a
segment exactly when `start_time >= 0 and end_time > start_time`, with `id`
the original positional index; other rows are skipped. -/
def mkSegments (spc stc enc srcc : String) : Nat → List Row → List Segment
  | _, [] => []
  | i, r :: rs =>
    if keepRow stc enc r then segOfRow spc stc enc srcc i r :: mkSegments spc stc enc srcc (i + 1) rs
    else mkSegments spc stc enc srcc (i + 1) rs

/-- The comparison of `segments.sort(key=lambda x: x['start_time'])`. -/
def segLE (a b : Segment) : Bool := decide (a.start_time ≤ b.start_time)

/-- The sort of `upload_csv` (src/app.py line 288), a stable ascending sort by
`start_time`. -/
def sortSegs (l : List Segment) : List Segment := l.mergeSort segLE

/-- The deduplicated speaker values of the retained segments (the model of the
Python `set`; its iteration order is unspecified in the source). -/
def speakersOf (segs : List Segment) : List String := (segs.map (fun s => s.speaker)).dedup

/-- `max([seg['end_time'] for seg in segments]) if segments else 0`
(src/app.py line 293). -/
def totalDur (segs : List Segment) : ℚ :=
  match segs.map (fun s => s.end_time) with
  | [] => 0
  | x :: xs => xs.foldl max x

/-- The success payload of `upload_csv` (src/app.py lines 290-294). -/
structure UploadResult where
  segments : List Segment
  speakers : List String
  total_duration : ℚ
deriving DecidableEq

/-- Embedding of the CSV-processing core of `upload_csv`
(src/app.py lines 218-294): strip the headers, resolve the four column roles,
reject the whole dataset with the list of missing roles if any role is
unresolved, otherwise build, sort and aggregate the segments. -/
def upload_csv (headers : List String) (rows : List Row) : Except (List String) UploadResult :=
  match resolveAll headers with
  | some (spc, stc, enc, srcc) =>
    let segs := sortSegs (mkSegments spc stc enc srcc 0 rows)
    .ok { segments := segs
          speakers := speakersOf (mkSegments spc stc enc srcc 0 rows)
          total_duration := totalDur segs }
  | none => .error (missingCols headers)

/-- The speaker test of the header loop: normalized name in `['speaker']`
(src/app.py line 234). -/
def isSpeakerHeader (col : String) : Bool :=
  decide (normalize_column_name col ∈ ["speaker"])

/-- The start-time test of the header loop (src/app.py line 236). -/
def isStartHeader (col : String) : Bool :=
  decide (normalize_column_name col ∈ ["start_time", "starttime", "start time"])

/-- The end-time test of the header loop (src/app.py line 238). -/
def isEndHeader (col : String) : Bool :=
  decide (normalize_column_name col ∈ ["end_time", "endtime", "end time"])

/-- The four role tests a single header can satisfy (speaker, start, end,
source): the observable of column resolution for one header. -/
def headerRoleSig (col : String) : Bool × Bool × Bool × Bool :=
  (isSpeakerHeader col, isStartHeader col, isEndHeader col, isSourceHeader col)

/-- The segment list of a successful upload outcome (`[]` on rejection). -/
def okSegments : Except (List String) UploadResult → List Segment
  | .ok r => r.segments
  | .error _ => []

/-- A small concrete dataset used to instantiate the upload theorems:
all four roles resolve, the first row is valid, the second has
`end_time < start_time`. -/
def demoHeaders : List String := ["speaker", "start_time", "end_time", "text"]

/-- The rows of the concrete demo dataset. -/
def demoRows : List Row :=
  [[("speaker", "A"), ("start_time", "1"), ("end_time", "3"), ("text", "hi")],
   [("speaker", "B"), ("start_time", "5"), ("end_time", "2"), ("text", "no")]]

/-! ### Structural lemmas about stripping and splitting -/

theorem mem_of_mem_lstrip {a : Char} {l : List Char} (h : a ∈ lstrip l) : a ∈ l :=
  (List.dropWhile_sublist isPySpace).subset h

theorem mem_of_mem_rstrip {a : Char} {l : List Char} (h : a ∈ rstrip l) : a ∈ l := by
  rw [rstrip, List.mem_reverse] at h
  exact List.mem_reverse.mp (mem_of_mem_lstrip h)

theorem mem_of_mem_pyStrip {a : Char} {l : List Char} (h : a ∈ pyStrip l) : a ∈ l :=
  mem_of_mem_lstrip (mem_of_mem_rstrip h)

theorem splitCh_ne_nil (sep : Char) (l : List Char) : splitCh sep l ≠ [] := by
  cases l with
  | nil => simp [splitCh]
  | cons c rest =>
    simp only [splitCh]
    split <;> simp

theorem mem_of_mem_splitCh {sep a : Char} {l : List Char} :
    ∀ {p : List Char}, p ∈ splitCh sep l → a ∈ p → a ∈ l := by
  induction l with
  | nil =>
    intro p hp ha
    simp [splitCh] at hp
    subst hp
    simp at ha
  | cons c rest ih =>
    intro p hp ha
    simp only [splitCh] at hp
    by_cases hc : c = sep
    · rw [if_pos hc] at hp
      rcases List.mem_cons.mp hp with h1 | h2
      · subst h1; simp at ha
      · exact List.mem_cons_of_mem c (ih h2 ha)
    · rw [if_neg hc] at hp
      obtain ⟨hd, tl, hr⟩ := List.exists_cons_of_ne_nil (splitCh_ne_nil sep rest)
      rw [hr] at hp
      simp only [List.headD_cons, List.tail_cons] at hp
      rcases List.mem_cons.mp hp with h1 | h2
      · subst h1
        rcases List.mem_cons.mp ha with h3 | h4
        · subst h3; exact List.mem_cons_self _ _
        · exact List.mem_cons_of_mem c (ih (hr ▸ List.mem_cons_self hd tl) h4)
      · exact List.mem_cons_of_mem c (ih (hr ▸ List.mem_cons_of_mem hd h2) ha)

theorem lstrip_append_cons {ch : Char} (hch : isPySpace ch = false) (x y : List Char) :
    lstrip (x ++ ch :: y) = lstrip x ++ ch :: y := by
  induction x with
  | nil => simp [lstrip, List.dropWhile_cons, hch]
  | cons c t ih =>
    by_cases hc : isPySpace c
    · simp only [lstrip, List.cons_append, List.dropWhile_cons_of_pos hc]
      exact ih
    · simp [lstrip, List.cons_append, List.dropWhile_cons_of_neg hc]

theorem rstrip_append_cons {ch : Char} (hch : isPySpace ch = false) (x y : List Char) :
    rstrip (x ++ ch :: y) = x ++ ch :: rstrip y := by
  rw [rstrip, rstrip, List.reverse_append, List.reverse_cons, List.append_assoc]
  rw [show ([ch] ++ x.reverse) = ch :: x.reverse from rfl]
  rw [lstrip_append_cons hch]
  simp

theorem pyStrip_append_cons {ch : Char} (hch : isPySpace ch = false) (x y : List Char) :
    pyStrip (x ++ ch :: y) = lstrip x ++ ch :: rstrip y := by
  rw [pyStrip, lstrip_append_cons hch, rstrip_append_cons hch]

theorem lstrip_idem (l : List Char) : lstrip (lstrip l) = lstrip l := by
  simp [lstrip, List.dropWhile_idempotent]

theorem rstrip_idem (l : List Char) : rstrip (rstrip l) = rstrip l := by
  unfold rstrip
  rw [List.reverse_reverse, lstrip_idem]

theorem lstrip_eq_nil_iff {l : List Char} : lstrip l = [] ↔ ∀ c ∈ l, isPySpace c := by
  simp [lstrip, List.dropWhile_eq_nil_iff]

theorem rstrip_eq_nil_iff {l : List Char} : rstrip l = [] ↔ ∀ c ∈ l, isPySpace c := by
  rw [rstrip]
  simp only [List.reverse_eq_nil_iff]
  rw [lstrip_eq_nil_iff]
  simp

theorem rstrip_cons (c : Char) (l : List Char) :
    rstrip (c :: l) =
      if rstrip l = [] then (if isPySpace c then [] else [c]) else c :: rstrip l := by
  have hrev : rstrip l = [] ↔ (List.dropWhile isPySpace l.reverse).isEmpty := by
    rw [rstrip, lstrip]
    simp [List.isEmpty_iff]
  rw [rstrip, lstrip, List.reverse_cons, List.dropWhile_append]
  by_cases h : rstrip l = []
  · rw [if_pos h]
    rw [hrev] at h
    rw [if_pos h]
    by_cases hc : isPySpace c
    · simp [List.dropWhile_cons, hc]
    · simp [List.dropWhile_cons, hc]
  · rw [if_neg h]
    rw [hrev] at h
    rw [if_neg (by simpa using h)]
    simp [rstrip, lstrip]

theorem lstrip_rstrip_comm (l : List Char) : lstrip (rstrip l) = rstrip (lstrip l) := by
  induction l with
  | nil => rfl
  | cons c t ih =>
    have hrc := rstrip_cons c t
    by_cases hc : isPySpace c
    · have hl : lstrip (c :: t) = lstrip t := by
        simp [lstrip, List.dropWhile_cons, hc]
      rw [hl]
      by_cases hr : rstrip t = []
      · rw [if_pos hr, if_pos hc] at hrc
        rw [hrc]
        have hz : rstrip (lstrip t) = [] := by
          rw [rstrip_eq_nil_iff]
          intro x hx
          exact rstrip_eq_nil_iff.mp hr x (mem_of_mem_lstrip hx)
        rw [hz]
        rfl
      · rw [if_neg hr] at hrc
        rw [hrc]
        rw [show lstrip (c :: rstrip t) = lstrip (rstrip t) by
          simp [lstrip, List.dropWhile_cons, hc]]
        exact ih
    · have hl : lstrip (c :: t) = c :: t := by
        simp [lstrip, List.dropWhile_cons, hc]
      rw [hl]
      by_cases hr : rstrip t = []
      · rw [if_pos hr, if_neg hc] at hrc
        rw [hrc]
        simp [lstrip, List.dropWhile_cons, hc]
      · rw [if_neg hr] at hrc
        rw [hrc]
        simp [lstrip, List.dropWhile_cons, hc]

theorem pyStrip_lstrip (l : List Char) : pyStrip (lstrip l) = pyStrip l := by
  rw [pyStrip, pyStrip, lstrip_idem]

theorem pyStrip_rstrip (l : List Char) : pyStrip (rstrip l) = pyStrip l := by
  rw [pyStrip, pyStrip, lstrip_rstrip_comm, rstrip_idem]

theorem pyInt_lstrip (l : List Char) : pyInt (lstrip l) = pyInt l := by
  rw [pyInt, pyInt, pyStrip_lstrip]

theorem pyInt_rstrip (l : List Char) : pyInt (rstrip l) = pyInt l := by
  rw [pyInt, pyInt, pyStrip_rstrip]

theorem splitCh_of_not_mem {sep : Char} {l : List Char} (h : sep ∉ l) :
    splitCh sep l = [l] := by
  induction l with
  | nil => rfl
  | cons c t ih =>
    have hc : ¬ c = sep := fun e => h (e ▸ List.mem_cons_self c t)
    have ht : sep ∉ t := fun m => h (List.mem_cons_of_mem c m)
    simp only [splitCh, if_neg hc, ih ht]
    rfl

theorem splitCh_append_cons {sep : Char} {x : List Char} (h : sep ∉ x) (y : List Char) :
    splitCh sep (x ++ sep :: y) = x :: splitCh sep y := by
  induction x with
  | nil => simp [splitCh]
  | cons c t ih =>
    have hc : ¬ c = sep := fun e => h (e ▸ List.mem_cons_self c t)
    have ht : sep ∉ t := fun m => h (List.mem_cons_of_mem c m)
    simp only [List.cons_append, splitCh, if_neg hc, List.append_eq, ih ht]
    rfl

theorem length_splitCh (sep : Char) (l : List Char) :
    (splitCh sep l).length = l.count sep + 1 := by
  induction l with
  | nil => rfl
  | cons c t ih =>
    simp only [splitCh]
    by_cases hc : c = sep
    · rw [if_pos hc]
      simp [List.count_cons, hc, ih]
    · rw [if_neg hc]
      obtain ⟨hd, tl, hr⟩ := List.exists_cons_of_ne_nil (splitCh_ne_nil sep t)
      rw [hr]
      rw [hr] at ih
      simp only [List.headD_cons, List.tail_cons, List.length_cons] at ih ⊢
      rw [List.count_cons]
      simp only [show (c == sep) = false by simpa using hc, if_neg]
      simp only [Bool.false_eq_true, if_false]
      omega

theorem count_lstrip_of_not_space {ch : Char} (h : isPySpace ch = false) (l : List Char) :
    (lstrip l).count ch = l.count ch := by
  conv_rhs => rw [← List.takeWhile_append_dropWhile (p := isPySpace) (l := l)]
  rw [List.count_append]
  have hz : (l.takeWhile isPySpace).count ch = 0 := by
    rw [List.count_eq_zero]
    intro hm
    rw [List.mem_takeWhile_imp hm] at h
    cases h
  rw [lstrip, hz]
  omega

theorem count_rstrip_of_not_space {ch : Char} (h : isPySpace ch = false) (l : List Char) :
    (rstrip l).count ch = l.count ch := by
  rw [rstrip, List.count_reverse, count_lstrip_of_not_space h, List.count_reverse]

theorem count_pyStrip_of_not_space {ch : Char} (h : isPySpace ch = false) (l : List Char) :
    (pyStrip l).count ch = l.count ch := by
  rw [pyStrip, count_rstrip_of_not_space h, count_lstrip_of_not_space h]

theorem mem_pyStrip_of_not_space {ch : Char} (h : isPySpace ch = false) (l : List Char) :
    ch ∈ pyStrip l ↔ ch ∈ l := by
  rw [← List.count_pos_iff, ← List.count_pos_iff, count_pyStrip_of_not_space h]

/-! ### Non-negativity of the numeric parsers on minus-free input -/

theorem parseMantissa_nonneg {l : List Char} {q : ℚ} (h : parseMantissa l = some q) :
    0 ≤ q := by
  simp only [parseMantissa] at h
  split at h
  · split at h
    · exact absurd h (by simp)
    · obtain rfl : _ = q := Option.some.inj h
      exact Nat.cast_nonneg _
  · split at h
    · split at h
      · split at h
        · exact absurd h (by simp)
        · obtain rfl : _ = q := Option.some.inj h
          exact add_nonneg (Nat.cast_nonneg _)
            (div_nonneg (Nat.cast_nonneg _) (by positivity))
      · exact absurd h (by simp)
    · exact absurd h (by simp)

theorem pyFloatCore_nonneg {l : List Char} {q : ℚ} (h : pyFloatCore l = some q) :
    0 ≤ q := by
  simp only [pyFloatCore] at h
  split at h
  · exact parseMantissa_nonneg h
  · split at h
    · split at h
      · rename_i mv e hmv hex
        cases h
        exact mul_nonneg (parseMantissa_nonneg hmv) (le_of_lt (zpow_pos (by norm_num) e))
      · exact absurd h (by simp)
    · exact absurd h (by simp)

theorem pyFloat_nonneg {l : List Char} (hm : '-' ∉ l) {q : ℚ} (h : pyFloat l = some q) :
    0 ≤ q := by
  simp only [pyFloat] at h
  split at h
  · exact absurd h (by simp)
  · rename_i c rest heq
    by_cases hc : c = '-'
    · exact absurd (mem_of_mem_pyStrip (heq ▸ (hc ▸ List.mem_cons_self c rest))) hm
    · rw [if_neg hc] at h
      split at h
      · exact pyFloatCore_nonneg h
      · exact pyFloatCore_nonneg h

theorem pyIntCore_nonneg {l : List Char} (hm : '-' ∉ l) {z : Int}
    (h : pyIntCore l = some z) : 0 ≤ z := by
  simp only [pyIntCore] at h
  split at h
  · exact absurd h (by simp)
  · rename_i c rest
    by_cases hc : c = '-'
    · exact absurd (hc ▸ List.mem_cons_self c rest) hm
    · rw [if_neg hc] at h
      split at h
      · split at h
        · cases h; exact Int.natCast_nonneg _
        · exact absurd h (by simp)
      · split at h
        · cases h; exact Int.natCast_nonneg _
        · exact absurd h (by simp)

theorem pyInt_nonneg {l : List Char} (hm : '-' ∉ l) {z : Int}
    (h : pyInt l = some z) : 0 ≤ z :=
  pyIntCore_nonneg (fun hx => hm (mem_of_mem_pyStrip hx)) h

/-! ### Claim theorems: concrete evaluations -/

/-- C10: the formatter does not carry sub-minute rounding into the minutes
field: 59.9996 is non-negative and within 0.0005 of the whole minute 60, yet
`format_timecode` renders it as "00:00:60.000" — the seconds field rounds up
to 60.000 while the minutes field stays 00, so the output is not a canonical
HH:MM:SS.mmm string with seconds < 60. -/
theorem format_timecode_sixty_seconds_field :
    (0 : ℚ) ≤ 599996 / 10000 ∧ |(599996 / 10000 : ℚ) - 60| ≤ 5 / 10000 ∧
    format_timecode (599996 / 10000) = "00:00:60.000" := by
  refine ⟨by norm_num, ?_, ?_⟩
  · rw [abs_le]; constructor <;> norm_num
  · have e1 : ⌊(599996 / 10000 : ℚ) / 3600⌋ = 0 := by norm_num
    have e2 : pyMod (599996 / 10000) 3600 = 599996 / 10000 := by rw [pyMod, e1]; norm_num
    have e3 : ⌊pyMod (599996 / 10000 : ℚ) 3600 / 60⌋ = 0 := by rw [e2]; norm_num
    have e4 : pyMod (599996 / 10000 : ℚ) 60 = 599996 / 10000 := by rw [pyMod]; norm_num
    have e5 : roundHE ((599996 / 10000 : ℚ) * 1000) = 60000 := by rw [roundHE]; norm_num
    rw [format_timecode, e1, e3, e4, fmtSecs, e5]
    rfl

/-- C1 (code bug at input v = 1.0): `format_timecode 1` is "00:00:01.000",
but `parse_timecode` maps that string to 0 — `int()` rejects the fractional
seconds field "01.000" — so the round-trip error is 1, far above the claimed
0.001 tolerance. -/
theorem parse_format_roundtrip_fails_at_one :
    format_timecode 1 = "00:00:01.000" ∧
    parse_timecode (format_timecode 1) = 0 ∧
    ¬ |parse_timecode (format_timecode 1) - 1| ≤ 1 / 1000 := by
  have hf : format_timecode 1 = "00:00:01.000" := by
    have e1 : ⌊(1 : ℚ) / 3600⌋ = 0 := by norm_num
    have e2 : pyMod 1 3600 = 1 := by rw [pyMod, e1]; norm_num
    have e3 : ⌊pyMod 1 3600 / 60⌋ = 0 := by rw [e2]; norm_num
    have e4 : pyMod 1 60 = 1 := by rw [pyMod]; norm_num
    have e5 : roundHE ((1 : ℚ) * 1000) = 1000 := by rw [roundHE]; norm_num
    rw [format_timecode, e1, e3, e4, fmtSecs, e5]
    rfl
  have hp : parse_timecode "00:00:01.000" = 0 := rfl
  refine ⟨hf, by rw [hf, hp], ?_⟩
  rw [hf, hp]
  intro h
  rw [abs_le] at h
  have := h.1
  norm_num at this

/-- C2 counterexample: the parser is not non-negative on every input — the
string "-5" parses successfully (via `float()`) to the negative value -5. -/
theorem parse_timecode_negative_counterexample :
    parse_timecode "-5" = -5 ∧ ¬ (0 ≤ parse_timecode "-5") := by
  constructor
  · rfl
  · decide

/-- C2 (amended): the parser is total — every string yields a value, with 0 on
unparseable input — but the result is only guaranteed non-negative when the
input contains no minus sign; inputs such as "-5" produce negative values. -/
theorem parse_timecode_nonneg_of_no_minus :
    ∀ s : String, '-' ∉ s.data → 0 ≤ parse_timecode s := by
  intro s h
  have hns : '-' ∉ pyStrip s.data := fun hx => h (mem_of_mem_pyStrip hx)
  simp only [parse_timecode]
  split
  · split
    · rename_i a b c d heq
      split
      · rename_i hours minutes seconds frames h1 h2 h3 h4
        have na : '-' ∉ a := fun hx =>
          hns (mem_of_mem_splitCh (heq ▸ List.mem_cons_self a [b, c, d]) hx)
        have nb : '-' ∉ b := fun hx =>
          hns (mem_of_mem_splitCh (heq ▸ (by simp : b ∈ [a, b, c, d])) hx)
        have nc : '-' ∉ c := fun hx =>
          hns (mem_of_mem_splitCh (heq ▸ (by simp : c ∈ [a, b, c, d])) hx)
        have nd : '-' ∉ d := fun hx =>
          hns (mem_of_mem_splitCh (heq ▸ (by simp : d ∈ [a, b, c, d])) hx)
        have q1 : (0 : ℚ) ≤ (hours : ℚ) := by exact_mod_cast pyInt_nonneg na h1
        have q2 : (0 : ℚ) ≤ (minutes : ℚ) := by exact_mod_cast pyInt_nonneg nb h2
        have q3 : (0 : ℚ) ≤ (seconds : ℚ) := by exact_mod_cast pyInt_nonneg nc h3
        have q4 : (0 : ℚ) ≤ (frames : ℚ) := by exact_mod_cast pyInt_nonneg nd h4
        refine add_nonneg (add_nonneg (add_nonneg ?_ ?_) q3) ?_
        · exact mul_nonneg q1 (by norm_num)
        · exact mul_nonneg q2 (by norm_num)
        · exact div_nonneg q4 (by norm_num)
      · exact le_refl 0
    · rename_i a b c heq
      split
      · rename_i hours minutes seconds h1 h2 h3
        have na : '-' ∉ a := fun hx =>
          hns (mem_of_mem_splitCh (heq ▸ (by simp : a ∈ [a, b, c])) hx)
        have nb : '-' ∉ b := fun hx =>
          hns (mem_of_mem_splitCh (heq ▸ (by simp : b ∈ [a, b, c])) hx)
        have nc : '-' ∉ c := fun hx =>
          hns (mem_of_mem_splitCh (heq ▸ (by simp : c ∈ [a, b, c])) hx)
        have q1 : (0 : ℚ) ≤ (hours : ℚ) := by exact_mod_cast pyInt_nonneg na h1
        have q2 : (0 : ℚ) ≤ (minutes : ℚ) := by exact_mod_cast pyInt_nonneg nb h2
        have q3 : (0 : ℚ) ≤ (seconds : ℚ) := by exact_mod_cast pyInt_nonneg nc h3
        refine add_nonneg (add_nonneg ?_ ?_) q3
        · exact mul_nonneg q1 (by norm_num)
        · exact mul_nonneg q2 (by norm_num)
      · exact le_refl 0
    · exact le_refl 0
  · split
    · rename_i q hq
      exact pyFloat_nonneg hns hq
    · exact le_refl 0

/-- C2 witness: the no-minus theorem applies to the concrete input "7.5". -/
theorem parse_timecode_nonneg_witness :
    '-' ∉ ("7.5" : String).data ∧ 0 ≤ parse_timecode "7.5" :=
  ⟨by decide, parse_timecode_nonneg_of_no_minus "7.5" (by decide)⟩

/-- C3: on a colon timecode whose fields are integers, the parser returns
exactly h*3600 + m*60 + s + f/30 for four fields (30 fps hard-coded),
exactly h*3600 + m*60 + s for three fields, and 0 for any other
colon-separated field count. -/
theorem parse_timecode_colon_fields :
    (∀ (s : String) (a b c d : List Char) (hh mm ss ff : Int),
      s.data = a ++ ':' :: (b ++ ':' :: (c ++ ':' :: d)) →
      pyInt a = some hh → pyInt b = some mm → pyInt c = some ss → pyInt d = some ff →
      ':' ∉ a → ':' ∉ b → ':' ∉ c → ':' ∉ d →
      parse_timecode s = (hh : ℚ) * 3600 + (mm : ℚ) * 60 + (ss : ℚ) + (ff : ℚ) / 30) ∧
    (∀ (s : String) (a b c : List Char) (hh mm ss : Int),
      s.data = a ++ ':' :: (b ++ ':' :: c) →
      pyInt a = some hh → pyInt b = some mm → pyInt c = some ss →
      ':' ∉ a → ':' ∉ b → ':' ∉ c →
      parse_timecode s = (hh : ℚ) * 3600 + (mm : ℚ) * 60 + (ss : ℚ)) ∧
    (∀ s : String, ':' ∈ s.data → (splitCh ':' s.data).length ≠ 3 →
      (splitCh ':' s.data).length ≠ 4 → parse_timecode s = 0) := by
  have hsp : isPySpace ':' = false := rfl
  refine ⟨?_, ?_, ?_⟩
  · intro s a b c d hh mm ss ff hdata h1 h2 h3 h4 n1 n2 n3 n4
    have hs1 : pyStrip s.data = lstrip a ++ ':' :: (b ++ ':' :: (c ++ ':' :: rstrip d)) := by
      rw [hdata, pyStrip_append_cons hsp, rstrip_append_cons hsp, rstrip_append_cons hsp]
    have hmem : ':' ∈ pyStrip s.data := by rw [hs1]; simp
    have hsplit : splitCh ':' (pyStrip s.data) = [lstrip a, b, c, rstrip d] := by
      rw [hs1, splitCh_append_cons (fun hx => n1 (mem_of_mem_lstrip hx)),
        splitCh_append_cons n2, splitCh_append_cons n3,
        splitCh_of_not_mem (fun hx => n4 (mem_of_mem_rstrip hx))]
    simp only [parse_timecode]
    rw [if_pos hmem]
    simp only [hsplit, (pyInt_lstrip a).trans h1, (pyInt_rstrip d).trans h4, h2, h3]
  · intro s a b c hh mm ss hdata h1 h2 h3 n1 n2 n3
    have hs1 : pyStrip s.data = lstrip a ++ ':' :: (b ++ ':' :: rstrip c) := by
      rw [hdata, pyStrip_append_cons hsp, rstrip_append_cons hsp]
    have hmem : ':' ∈ pyStrip s.data := by rw [hs1]; simp
    have hsplit : splitCh ':' (pyStrip s.data) = [lstrip a, b, rstrip c] := by
      rw [hs1, splitCh_append_cons (fun hx => n1 (mem_of_mem_lstrip hx)),
        splitCh_append_cons n2,
        splitCh_of_not_mem (fun hx => n3 (mem_of_mem_rstrip hx))]
    simp only [parse_timecode]
    rw [if_pos hmem]
    simp only [hsplit, (pyInt_lstrip a).trans h1, (pyInt_rstrip c).trans h3, h2]
  · intro s hmem h3 h4
    have hcount : (splitCh ':' (pyStrip s.data)).length = (splitCh ':' s.data).length := by
      rw [length_splitCh, length_splitCh, count_pyStrip_of_not_space hsp]
    have hmem' : ':' ∈ pyStrip s.data := (mem_pyStrip_of_not_space hsp _).mpr hmem
    simp only [parse_timecode]
    rw [if_pos hmem']
    generalize hgen : splitCh ':' (pyStrip s.data) = parts at hcount ⊢
    rcases parts with _ | ⟨a, _ | ⟨b, _ | ⟨c, _ | ⟨d, _ | ⟨e, tl⟩⟩⟩⟩⟩
    · rfl
    · rfl
    · rfl
    · exact absurd (by simpa using hcount.symm) h3
    · exact absurd (by simpa using hcount.symm) h4
    · rfl

/-- C3 witness: the colon-format theorem applies to "01:02:03:15",
"01:02:03" and the two-field string "1:2". -/
theorem parse_timecode_colon_witness :
    parse_timecode "01:02:03:15" =
      ((1 : Int) : ℚ) * 3600 + ((2 : Int) : ℚ) * 60 + ((3 : Int) : ℚ) + ((15 : Int) : ℚ) / 30 ∧
    parse_timecode "01:02:03" =
      ((1 : Int) : ℚ) * 3600 + ((2 : Int) : ℚ) * 60 + ((3 : Int) : ℚ) ∧
    parse_timecode "1:2" = 0 := by
  refine ⟨?_, ?_, ?_⟩
  · exact parse_timecode_colon_fields.1 "01:02:03:15" "01".data "02".data "03".data "15".data
      1 2 3 15 rfl rfl rfl rfl rfl (by decide) (by decide) (by decide) (by decide)
  · exact parse_timecode_colon_fields.2.1 "01:02:03" "01".data "02".data "03".data
      1 2 3 rfl rfl rfl rfl (by decide) (by decide) (by decide)
  · exact parse_timecode_colon_fields.2.2 "1:2" (by decide) (by decide) (by decide)

/-- C7: `find_source_column` returns the first header, in declared order,
whose normalized form contains one of the keywords script/line/text/
transcription; it returns `none` exactly when no header matches; and on
`[id, Line, Transcription]` it picks `Line`. -/
theorem find_source_column_first :
    (∀ (cols : List String) (c : String), find_source_column cols = some c →
      isSourceHeader c = true ∧
      ∃ pre post, cols = pre ++ c :: post ∧ ∀ x ∈ pre, isSourceHeader x = false) ∧
    (∀ cols : List String, find_source_column cols = none →
      ∀ x ∈ cols, isSourceHeader x = false) ∧
    find_source_column ["id", "Line", "Transcription"] = some "Line" := by
  refine ⟨?_, ?_, ?_⟩
  · intro cols
    induction cols with
    | nil => intro c h; cases h
    | cons col rest ih =>
      intro c h
      simp only [find_source_column] at h
      by_cases hc : isSourceHeader col
      · rw [if_pos hc] at h
        cases h
        exact ⟨hc, [], rest, rfl, by simp⟩
      · rw [if_neg hc] at h
        obtain ⟨hsrc, pre, post, heq, hall⟩ := ih c h
        refine ⟨hsrc, col :: pre, post, by rw [heq]; rfl, ?_⟩
        intro x hx
        rcases List.mem_cons.mp hx with rfl | hx'
        · simpa using hc
        · exact hall x hx'
  · intro cols
    induction cols with
    | nil => intro _ x hx; simp at hx
    | cons col rest ih =>
      intro h x hx
      simp only [find_source_column] at h
      by_cases hc : isSourceHeader col
      · rw [if_pos hc] at h; cases h
      · rw [if_neg hc] at h
        rcases List.mem_cons.mp hx with rfl | hx'
        · simpa using hc
        · exact ih h x hx'
  · rfl

/-- C7 witness: the first-match characterization applied to the concrete
header list `[id, Line, Transcription]`. -/
theorem find_source_column_first_witness :
    isSourceHeader "Line" = true ∧
    ∃ pre post, ["id", "Line", "Transcription"] = pre ++ "Line" :: post ∧
      ∀ x ∈ pre, isSourceHeader x = false :=
  find_source_column_first.1 ["id", "Line", "Transcription"] "Line"
    find_source_column_first.2.2

theorem resolveStep_speaker (acc : Resolved) (col : String) :
    (resolveStep acc col).speaker_col =
      if isSpeakerHeader col then some col else acc.speaker_col := by
  simp only [resolveStep]
  by_cases h : normalize_column_name col ∈ ["speaker"]
  · rw [if_pos h, if_pos (show isSpeakerHeader col = true by simpa [isSpeakerHeader] using h)]
  · rw [if_neg h, if_neg (show ¬ isSpeakerHeader col = true by simpa [isSpeakerHeader] using h)]
    split_ifs <;> rfl

theorem start_not_speaker {col : String}
    (h : normalize_column_name col ∈ ["start_time", "starttime", "start time"]) :
    normalize_column_name col ∉ (["speaker"] : List String) := by
  intro hsp
  rw [List.mem_singleton] at hsp
  rw [hsp] at h
  exact absurd h (by decide)

theorem end_not_speaker {col : String}
    (h : normalize_column_name col ∈ ["end_time", "endtime", "end time"]) :
    normalize_column_name col ∉ (["speaker"] : List String) := by
  intro hsp
  rw [List.mem_singleton] at hsp
  rw [hsp] at h
  exact absurd h (by decide)

theorem end_not_start {col : String}
    (h : normalize_column_name col ∈ ["end_time", "endtime", "end time"]) :
    normalize_column_name col ∉ (["start_time", "starttime", "start time"] : List String) := by
  intro hst
  simp only [List.mem_cons, List.mem_singleton, List.not_mem_nil, or_false] at h hst
  rcases hst with hst | hst | hst <;> rw [hst] at h <;>
    rcases h with h | h | h <;> exact absurd h (by decide)

theorem resolveStep_start (acc : Resolved) (col : String) :
    (resolveStep acc col).start_time_col =
      if isStartHeader col then some col else acc.start_time_col := by
  simp only [resolveStep]
  by_cases h : normalize_column_name col ∈ ["start_time", "starttime", "start time"]
  · rw [if_neg (start_not_speaker h), if_pos h,
      if_pos (show isStartHeader col = true by simpa [isStartHeader] using h)]
  · rw [if_neg (show ¬ isStartHeader col = true by simpa [isStartHeader] using h)]
    by_cases hsp : normalize_column_name col ∈ ["speaker"]
    · rw [if_pos hsp]
    · rw [if_neg hsp, if_neg h]
      split_ifs <;> rfl

theorem resolveStep_end (acc : Resolved) (col : String) :
    (resolveStep acc col).end_time_col =
      if isEndHeader col then some col else acc.end_time_col := by
  simp only [resolveStep]
  by_cases h : normalize_column_name col ∈ ["end_time", "endtime", "end time"]
  · rw [if_neg (end_not_speaker h), if_neg (end_not_start h), if_pos h,
      if_pos (show isEndHeader col = true by simpa [isEndHeader] using h)]
  · rw [if_neg (show ¬ isEndHeader col = true by simpa [isEndHeader] using h)]
    by_cases hsp : normalize_column_name col ∈ ["speaker"]
    · rw [if_pos hsp]
    · rw [if_neg hsp]
      by_cases hst : normalize_column_name col ∈ ["start_time", "starttime", "start time"]
      · rw [if_pos hst]
      · rw [if_neg hst, if_neg h]

theorem foldl_resolveStep_proj (proj : Resolved → Option String) (p : String → Bool)
    (hstep : ∀ acc col, proj (resolveStep acc col) = if p col then some col else proj acc) :
    ∀ (cols : List String) (acc : Resolved),
      proj (cols.foldl resolveStep acc) = (cols.reverse.find? p).or (proj acc) := by
  intro cols
  induction cols with
  | nil => intro acc; simp
  | cons col t ih =>
    intro acc
    rw [List.foldl_cons, ih, List.reverse_cons, List.find?_append, hstep]
    cases hf : t.reverse.find? p with
    | some v => simp [Option.or]
    | none =>
      by_cases hp : p col <;> simp [List.find?, hp, Option.or]

theorem find_source_column_eq_find? (cols : List String) :
    find_source_column cols = cols.find? isSourceHeader := by
  induction cols with
  | nil => rfl
  | cons c t ih =>
    simp only [find_source_column, List.find?]
    by_cases h : isSourceHeader c <;> simp [h, ih]

/-- C9: when several headers match the same role keyword after normalization,
the speaker, start and end roles resolve to the last matching header in
declared order (the loop overwrites on each match), while the source role
resolves to the first matching header; e.g. resolving `[Speaker, speaker ]`
gives speaker column `speaker `, and `[Line, Text]` gives source `Line`. -/
theorem role_resolution_last_vs_first :
    (∀ cols : List String,
      (resolveRoles cols).speaker_col = cols.reverse.find? isSpeakerHeader) ∧
    (∀ cols : List String,
      (resolveRoles cols).start_time_col = cols.reverse.find? isStartHeader) ∧
    (∀ cols : List String,
      (resolveRoles cols).end_time_col = cols.reverse.find? isEndHeader) ∧
    (∀ cols : List String, find_source_column cols = cols.find? isSourceHeader) ∧
    (resolveRoles ["Speaker", "speaker "]).speaker_col = some "speaker " ∧
    find_source_column ["Line", "Text"] = some "Line" := by
  refine ⟨?_, ?_, ?_, find_source_column_eq_find?, rfl, rfl⟩
  · intro cols
    rw [resolveRoles, foldl_resolveStep_proj _ isSpeakerHeader resolveStep_speaker]
    simp [Option.or_none]
  · intro cols
    rw [resolveRoles, foldl_resolveStep_proj _ isStartHeader resolveStep_start]
    simp [Option.or_none]
  · intro cols
    rw [resolveRoles, foldl_resolveStep_proj _ isEndHeader resolveStep_end]
    simp [Option.or_none]

theorem toNat_ofNat_valid {n : Nat} (h : n < 55296) : (Char.ofNat n).toNat = n := by
  rw [Char.ofNat, dif_pos (Or.inl h)]
  rfl

theorem pyLowerChar_pyUpperChar (c : Char) : pyLowerChar (pyUpperChar c) = pyLowerChar c := by
  unfold pyUpperChar pyLowerChar
  by_cases h : 97 ≤ c.toNat ∧ c.toNat ≤ 122
  · rw [if_pos h]
    have h1 : (Char.ofNat (c.toNat - 32)).toNat = c.toNat - 32 :=
      toNat_ofNat_valid (by omega)
    rw [if_pos (show 65 ≤ (Char.ofNat (c.toNat - 32)).toNat ∧
        (Char.ofNat (c.toNat - 32)).toNat ≤ 90 by rw [h1]; omega)]
    rw [if_neg (show ¬ (65 ≤ c.toNat ∧ c.toNat ≤ 90) by omega)]
    rw [h1, show c.toNat - 32 + 32 = c.toNat from by omega, Char.ofNat_toNat]
  · rw [if_neg h]

theorem pyLower_map_pyUpperChar (l : List Char) :
    pyLower (l.map pyUpperChar) = pyLower l := by
  rw [pyLower, pyLower, List.map_map]
  exact List.map_congr_left (fun c _ => pyLowerChar_pyUpperChar c)

theorem normalize_pyUpper (s : String) :
    normalize_column_name (pyUpper s) = normalize_column_name s := by
  show (⟨pyStrip (pyLower (s.data.map pyUpperChar))⟩ : String) = ⟨pyStrip (pyLower s.data)⟩
  rw [pyLower_map_pyUpperChar]

theorem lstrip_cons_space {c : Char} (hc : isPySpace c = true) (l : List Char) :
    lstrip (c :: l) = lstrip l := by
  simp [lstrip, List.dropWhile_cons, hc]

theorem rstrip_append_space {c : Char} (hc : isPySpace c = true) (l : List Char) :
    rstrip (l ++ [c]) = rstrip l := by
  have hrev : (l ++ [c]).reverse = c :: l.reverse := by simp
  rw [rstrip, hrev, lstrip_cons_space hc, rstrip]

theorem pyStrip_pad_space (l : List Char) :
    pyStrip (' ' :: (l ++ [' '])) = pyStrip l := by
  rw [pyStrip, lstrip_cons_space (by decide), ← lstrip_rstrip_comm,
    rstrip_append_space (by decide), lstrip_rstrip_comm]
  rfl

theorem normalize_pad_space (s : String) :
    normalize_column_name (" " ++ s ++ " ") = normalize_column_name s := by
  show (⟨pyStrip (pyLower ((" " ++ s ++ " ").data))⟩ : String) = ⟨pyStrip (pyLower s.data)⟩
  have hd : (" " ++ s ++ " ").data = ' ' :: (s.data ++ [' ']) := by
    simp [String.data_append]
  rw [hd, pyLower, List.map_cons, List.map_append,
    show pyLowerChar ' ' = ' ' from rfl,
    show List.map pyLowerChar [' '] = [' '] from rfl]
  rw [pyStrip_pad_space]
  rfl

theorem headerRoleSig_congr {a b : String}
    (h : normalize_column_name a = normalize_column_name b) :
    headerRoleSig a = headerRoleSig b := by
  simp only [headerRoleSig, isSpeakerHeader, isStartHeader, isEndHeader, isSourceHeader, h]

/-- C8: column resolution is invariant under upper-casing and under
leading/trailing whitespace on a header — the four role tests (speaker,
start, end, source) give identical results for `h`, for `h` uppercased and
for `h` surrounded by spaces; in particular " Speaker ", "SPEAKER" and
"speaker" all resolve to exactly the speaker role. -/
theorem column_resolution_case_whitespace_invariant :
    (∀ s : String, headerRoleSig (pyUpper s) = headerRoleSig s) ∧
    (∀ s : String, headerRoleSig (" " ++ s ++ " ") = headerRoleSig s) ∧
    headerRoleSig " Speaker " = (true, false, false, false) ∧
    headerRoleSig "SPEAKER" = (true, false, false, false) ∧
    headerRoleSig "speaker" = (true, false, false, false) := by
  refine ⟨fun s => headerRoleSig_congr (normalize_pyUpper s),
    fun s => headerRoleSig_congr (normalize_pad_space s), ?_, ?_, ?_⟩ <;> rfl

/-- C6: the upload rejects the whole dataset exactly when one of the four
column roles is unresolved; the reported list is exactly the set of missing
roles (in the fixed order speaker, start_time, end_time, source), it is
nonempty, and a rejection carries no segments; when all four roles resolve,
no such failure occurs. -/
theorem upload_missing_roles (headers : List String) (rows : List Row) :
    ((∃ L, upload_csv headers rows = Except.error L) ↔
      ((resolveRoles (strippedCols headers)).speaker_col = none ∨
       (resolveRoles (strippedCols headers)).start_time_col = none ∨
       (resolveRoles (strippedCols headers)).end_time_col = none ∨
       find_source_column (strippedCols headers) = none)) ∧
    (∀ L, upload_csv headers rows = Except.error L →
      L = missingCols headers ∧ L ≠ [] ∧
      ("speaker" ∈ L ↔ (resolveRoles (strippedCols headers)).speaker_col = none) ∧
      ("start_time" ∈ L ↔ (resolveRoles (strippedCols headers)).start_time_col = none) ∧
      ("end_time" ∈ L ↔ (resolveRoles (strippedCols headers)).end_time_col = none) ∧
      ("source (script/line/text/transcription)" ∈ L ↔
        find_source_column (strippedCols headers) = none)) := by
  rcases hsp : (resolveRoles (strippedCols headers)).speaker_col with _ | spc <;>
  rcases hst : (resolveRoles (strippedCols headers)).start_time_col with _ | stc <;>
  rcases hen : (resolveRoles (strippedCols headers)).end_time_col with _ | enc <;>
  rcases hsc : find_source_column (strippedCols headers) with _ | srcc <;>
    simp [upload_csv, resolveAll, missingCols, hsp, hst, hen, hsc]

/-- C6 witness: a dataset whose only header is `id` is rejected. -/
theorem upload_missing_roles_witness :
    ∃ L, upload_csv ["id"] [] = Except.error L :=
  (upload_missing_roles ["id"] []).1.mpr (Or.inl rfl)

theorem le_id_of_mem_mkSegments (spc stc enc srcc : String) :
    ∀ (rows : List Row) (k : Nat) (s : Segment),
      s ∈ mkSegments spc stc enc srcc k rows → k ≤ s.id := by
  intro rows
  induction rows with
  | nil => intro k s h; simp [mkSegments] at h
  | cons r rs ih =>
    intro k s h
    simp only [mkSegments] at h
    by_cases hk : keepRow stc enc r
    · rw [if_pos hk] at h
      rcases List.mem_cons.mp h with rfl | h'
      · exact Nat.le_refl _
      · exact Nat.le_trans (Nat.le_succ k) (ih (k + 1) s h')
    · rw [if_neg hk] at h
      exact Nat.le_trans (Nat.le_succ k) (ih (k + 1) s h)

theorem mem_mkSegments_props (spc stc enc srcc : String) :
    ∀ (rows : List Row) (k : Nat) (s : Segment),
      s ∈ mkSegments spc stc enc srcc k rows →
      0 ≤ s.start_time ∧ s.start_time < s.end_time ∧
        s.duration = s.end_time - s.start_time := by
  intro rows
  induction rows with
  | nil => intro k s h; simp [mkSegments] at h
  | cons r rs ih =>
    intro k s h
    simp only [mkSegments] at h
    by_cases hk : keepRow stc enc r
    · rw [if_pos hk] at h
      rcases List.mem_cons.mp h with rfl | h'
      · exact ⟨hk.1, hk.2, rfl⟩
      · exact ih (k + 1) s h'
    · rw [if_neg hk] at h
      exact ih (k + 1) s h

theorem id_mem_mkSegments (spc stc enc srcc : String) :
    ∀ (rows : List Row) (k i : Nat),
      (∃ s ∈ mkSegments spc stc enc srcc k rows, s.id = k + i) ↔
      (∃ h : i < rows.length, keepRow stc enc (rows.get ⟨i, h⟩)) := by
  intro rows
  induction rows with
  | nil =>
    intro k i
    simp [mkSegments]
  | cons r rs ih =>
    intro k i
    simp only [mkSegments]
    by_cases hk : keepRow stc enc r
    · rw [if_pos hk]
      cases i with
      | zero =>
        constructor
        · intro _
          exact ⟨Nat.succ_pos _, hk⟩
        · intro _
          exact ⟨segOfRow spc stc enc srcc k r, List.mem_cons_self _ _, rfl⟩
      | succ j =>
        constructor
        · rintro ⟨s, hs, hid⟩
          rcases List.mem_cons.mp hs with rfl | h'
          · exfalso
            have hidk : (segOfRow spc stc enc srcc k r).id = k := rfl
            omega
          · obtain ⟨hlt, hkeep⟩ := (ih (k + 1) j).mp ⟨s, h', by omega⟩
            exact ⟨Nat.succ_lt_succ hlt, hkeep⟩
        · rintro ⟨hlt, hkeep⟩
          obtain ⟨s, hs, hid⟩ := (ih (k + 1) j).mpr ⟨Nat.lt_of_succ_lt_succ hlt, hkeep⟩
          exact ⟨s, List.mem_cons_of_mem _ hs, by omega⟩
    · rw [if_neg hk]
      cases i with
      | zero =>
        constructor
        · rintro ⟨s, hs, hid⟩
          have := le_id_of_mem_mkSegments spc stc enc srcc rs (k + 1) s hs
          omega
        · rintro ⟨hlt, hkeep⟩
          exact absurd hkeep hk
      | succ j =>
        constructor
        · rintro ⟨s, hs, hid⟩
          obtain ⟨hlt, hkeep⟩ := (ih (k + 1) j).mp ⟨s, hs, by omega⟩
          exact ⟨Nat.succ_lt_succ hlt, hkeep⟩
        · rintro ⟨hlt, hkeep⟩
          obtain ⟨s, hs, hid⟩ := (ih (k + 1) j).mpr ⟨Nat.lt_of_succ_lt_succ hlt, hkeep⟩
          exact ⟨s, hs, by omega⟩

theorem okSegments_upload {headers : List String} {spc stc enc srcc : String}
    (hres : resolveAll headers = some (spc, stc, enc, srcc)) (rows : List Row) :
    okSegments (upload_csv headers rows) =
      sortSegs (mkSegments spc stc enc srcc 0 rows) := by
  simp [upload_csv, hres, okSegments]

theorem upload_not_error {headers : List String} {spc stc enc srcc : String}
    (hres : resolveAll headers = some (spc, stc, enc, srcc)) (rows : List Row) :
    ∀ L, upload_csv headers rows ≠ Except.error L := by
  intro L h
  simp [upload_csv, hres] at h

/-- C4: with all roles resolved, a row of index `i` yields a segment (with
`id = i`) if and only if its parsed `start_time` is non-negative and its
parsed `end_time` exceeds it; every produced segment satisfies
`0 ≤ start_time < end_time` with positive `duration = end_time - start_time`;
and rows violating the invariant never cause an error outcome. -/
theorem upload_row_retention :
    ∀ (headers : List String) (rows : List Row) (spc stc enc srcc : String),
      resolveAll headers = some (spc, stc, enc, srcc) →
      (∀ s ∈ okSegments (upload_csv headers rows),
        0 ≤ s.start_time ∧ s.start_time < s.end_time ∧
        s.duration = s.end_time - s.start_time ∧ 0 < s.duration) ∧
      (∀ i : Nat,
        (∃ s ∈ okSegments (upload_csv headers rows), s.id = i) ↔
        (∃ h : i < rows.length, keepRow stc enc (rows.get ⟨i, h⟩))) ∧
      (∀ L, upload_csv headers rows ≠ Except.error L) := by
  intro headers rows spc stc enc srcc hres
  have hok := okSegments_upload hres rows
  refine ⟨?_, ?_, upload_not_error hres rows⟩
  · intro s hs
    rw [hok, sortSegs] at hs
    have hs' : s ∈ mkSegments spc stc enc srcc 0 rows := List.mem_mergeSort.mp hs
    obtain ⟨h1, h2, h3⟩ := mem_mkSegments_props spc stc enc srcc rows 0 s hs'
    refine ⟨h1, h2, h3, ?_⟩
    rw [h3]
    linarith
  · intro i
    rw [hok, sortSegs]
    constructor
    · rintro ⟨s, hs, hid⟩
      exact (id_mem_mkSegments spc stc enc srcc rows 0 i).mp
        ⟨s, List.mem_mergeSort.mp hs, by omega⟩
    · intro hh
      obtain ⟨s, hs, hid⟩ := (id_mem_mkSegments spc stc enc srcc rows 0 i).mpr hh
      exact ⟨s, List.mem_mergeSort.mpr hs, by omega⟩

/-- C4 witness: in the demo dataset the valid first row (index 0) is
retained as a segment. -/
theorem upload_row_retention_witness :
    ∃ s ∈ okSegments (upload_csv demoHeaders demoRows), s.id = 0 := by
  have h := (upload_row_retention demoHeaders demoRows
    "speaker" "start_time" "end_time" "text" rfl).2.1 0
  exact h.mpr ⟨by decide, by decide⟩

theorem segLE_trans : ∀ a b c : Segment, segLE a b → segLE b c → segLE a c := by
  intro a b c hab hbc
  simp only [segLE, decide_eq_true_eq] at hab hbc ⊢
  exact le_trans hab hbc

theorem segLE_total : ∀ a b : Segment, segLE a b || segLE b a := by
  intro a b
  simp only [segLE]
  by_cases h : a.start_time ≤ b.start_time
  · simp [h]
  · simp [le_of_not_le h]

/-- C5: with all roles resolved, the returned segment collection is sorted
ascending by `start_time`, it is a permutation of the retained segments in
input-row order, and for every start-time value the segments carrying that
value appear in the same order as in the input (the sort is stable). -/
theorem upload_sorted_stable :
    ∀ (headers : List String) (rows : List Row) (spc stc enc srcc : String),
      resolveAll headers = some (spc, stc, enc, srcc) →
      (okSegments (upload_csv headers rows)).Pairwise
        (fun a b => a.start_time ≤ b.start_time) ∧
      List.Perm (okSegments (upload_csv headers rows))
        (mkSegments spc stc enc srcc 0 rows) ∧
      (∀ t : ℚ, (okSegments (upload_csv headers rows)).filter
          (fun s => decide (s.start_time = t)) =
        (mkSegments spc stc enc srcc 0 rows).filter
          (fun s => decide (s.start_time = t))) := by
  intro headers rows spc stc enc srcc hres
  have hok := okSegments_upload hres rows
  refine ⟨?_, ?_, ?_⟩
  · rw [hok, sortSegs]
    have hp := List.sorted_mergeSort segLE_trans segLE_total
      (mkSegments spc stc enc srcc 0 rows)
    exact hp.imp (fun {a b} h => by simpa [segLE] using h)
  · rw [hok, sortSegs]
    exact List.mergeSort_perm _ segLE
  · intro t
    rw [hok, sortSegs]
    set l := mkSegments spc stc enc srcc 0 rows with hl
    set p := fun s : Segment => decide (s.start_time = t) with hp
    have hmemt : ∀ a ∈ l.filter p, a.start_time = t := by
      intro a ha
      have := List.of_mem_filter ha
      simpa [hp] using this
    have hsub : List.Sublist (l.filter p) (List.mergeSort l segLE) := by
      apply List.sublist_mergeSort segLE_trans segLE_total
      · exact List.pairwise_of_forall_mem_list
          (fun a ha b hb => by simp [segLE, hmemt a ha, hmemt b hb])
      · exact List.filter_sublist l
    have hperm : List.Perm ((List.mergeSort l segLE).filter p) (l.filter p) :=
      (List.mergeSort_perm l segLE).filter p
    have hsub2 : List.Sublist (l.filter p) ((List.mergeSort l segLE).filter p) := by
      have h2 := hsub.filter p
      rwa [List.filter_eq_self.mpr
        (fun a (ha : a ∈ List.filter p l) => List.of_mem_filter ha)] at h2
    exact (hsub2.eq_of_length hperm.length_eq.symm).symm

/-- C5 witness: the sortedness conclusion instantiated on the demo dataset. -/
theorem upload_sorted_stable_witness :
    (okSegments (upload_csv demoHeaders demoRows)).Pairwise
      (fun a b => a.start_time ≤ b.start_time) :=
  (upload_sorted_stable demoHeaders demoRows
    "speaker" "start_time" "end_time" "text" rfl).1

end CsvTimeline

